import Mathlib

/-!
Verification of `mappingFromFieldMap`
(x-pack/plugins/rule_registry/server/event_log/log/utils/mapping_from_field_map.ts).

The TypeScript function converts a flat, dot-path-keyed field declaration
table (`FieldMap`) into a nested Elasticsearch index-mapping document:

```
export function mappingFromFieldMap(fieldMap, dynamic) {
  const mappings = { dynamic, properties: {} };
  const fields = Object.keys(fieldMap).map((key) => {
    const field = fieldMap[key];
    return { name: key, ...field };
  });
  fields.forEach((field) => {
    const { name, required, array, ...rest } = field;
    set(mappings.properties, field.name.split('.').join('.properties.'), rest);
  });
  return mappings;
}
```

We embed the function twice:

* a pure, value-level embedding (`mappingFromFieldMap` below) in which
  JavaScript objects are insertion-ordered association lists of unique keys
  (`JObj`), used for all functional-correctness claims, and
* a heap embedding (`mappingFromFieldMapH` further below) in which objects
  are store addresses, used for the frame/no-mutation claim, because the
  TypeScript code builds the result from *shallow* copies that share nested
  objects with the input by reference.

External dependencies are modelled from their documented behaviour:

* `set` from `@elastic/safer-lodash-set` behaves like lodash `set` on
  string paths — it parses the path string, walks the parsed keys, reuses
  an existing value at a key when that value is an object, replaces it by
  a fresh `{}` otherwise, and assigns the given value at the final key —
  except that it throws an `Error` when any parsed key is one of the
  prototype-polluting keys `__proto__`, `constructor`, `prototype`.
  We model the fragment of lodash's path grammar the dotted field names of
  this utility are meant to use: paths whose names contain no `[`/`]`
  (lodash parses bracket groups as extra keys) and no array-index
  segments (lodash would create arrays for unsigned-integer keys). On
  that fragment `stringToPath` is exactly dot-splitting and `set` stays
  within plain objects, which is what `pathOf`/`saferSet`/`lset` compute;
  theorems about general tables carry `bracketFree`/`noIndexSegs`
  hypotheses restricting them to this fragment.
* `FieldMap` (common/field_map, not part of the provided sources) is
  modelled from the spec, §3: a FieldDeclaration is a string-keyed record
  `{ name, type, required?, array?, ...additional schema attributes }`,
  so a declaration is an arbitrary JSON object (`JObj`).
-/

/-- JSON-like values: the value space of JavaScript objects handled by the
builder. An object is an insertion-ordered list of key/value bindings. -/
inductive JVal where
  | str : String → JVal
  | bool : Bool → JVal
  | num : Int → JVal
  | obj : List (String × JVal) → JVal
deriving Repr

/-- A JavaScript object: insertion-ordered association list. The operations
below (`getKey`, `setKey`) maintain key uniqueness the way JS objects do. -/
abbrev JObj := List (String × JVal)

/-- Property read `o[k]`: first binding wins (the operations keep keys
unique, so first = only). -/
def getKey {α : Type} : List (String × α) → String → Option α
  | [], _ => none
  | (k', v) :: rest, k => if k' = k then some v else getKey rest k

/-- Property write `o[k] = v`: updates an existing binding in place
(keeping its position, as JS does), else appends a new binding. -/
def setKey {α : Type} : List (String × α) → String → α → List (String × α)
  | [], k, v => [(k, v)]
  | (k', v') :: rest, k, v =>
    if k' = k then (k, v) :: rest else (k', v') :: setKey rest k v

/-- Object spread `{ ...base, ...extra }` (as in `{ name: key, ...field }`):
each binding of `extra` is assigned onto `base` in order, so a later
binding overrides an earlier one while the overridden binding keeps its
original position — exactly JS object-literal semantics. -/
def spreadInto {α : Type} (base : List (String × α)) (extra : List (String × α)) :
    List (String × α) :=
  extra.foldl (fun acc kv => setKey acc kv.fst kv.snd) base

/-- Rest destructuring `const { k₁, …, kₙ, ...rest } = o`: `rest` keeps all
bindings of `o` whose key is not among the destructured keys, in order. -/
def omitKeys {α : Type} : List (String × α) → List String → List (String × α)
  | [], _ => []
  | kv :: rest, ks =>
    if ks.contains kv.1 then omitKeys rest ks else kv :: omitKeys rest ks

/-- The keys destructured away in `const { name, required, array, ...rest }`. -/
def rmKeys : List String := ["name", "required", "array"]

/-- Model of JavaScript `name.split('.')` on the character list: splits on
`'.'`, keeping empty segments (so `""` ↦ `[[]]`, `"a..b"` ↦ three
segments), exactly as `String.prototype.split`. -/
def splitDots : List Char → List (List Char)
  | [] => [[]]
  | c :: rest =>
    if c = '.' then [] :: splitDots rest
    else
      match splitDots rest with
      | s :: ss => (c :: s) :: ss
      | [] => [c :: []]

/-- The dot-segments of a field name: `name.split('.')`. -/
def segsOf (name : String) : List String :=
  (splitDots name.toList).map (fun l => String.mk l)

/-- The lodash path used for a field: `name.split('.').join('.properties.')`
re-parsed by lodash (`stringToPath`) into keys. For bracket-free names the
parse splits the joined string purely on dots (empty segments preserved),
i.e. the name's segments with `"properties"` interleaved between
consecutive segments, which is what this computes; bracket groups, which
lodash would parse as additional keys, are outside the model and excluded
by the `bracketFree` hypothesis of the theorems. (The one bracket-free
exception is the empty name, which lodash parses as the empty path making
`set` a no-op; placement theorems exclude it via `wfName`, and for
exception-freedom both behaviours agree.) -/
def pathOf (name : String) : List String :=
  List.intersperse "properties" (segsOf name)

/-- Path keys rejected by `@elastic/safer-lodash-set` to prevent prototype
pollution. -/
def isForbidden (s : String) : Bool :=
  s == "__proto__" || s == "constructor" || s == "prototype"

/-- Lodash `baseSet` on a parsed object path without array-index keys:
walk the keys, reusing the value at each intermediate key when it is an
object and replacing it with a fresh `{}` otherwise, and assign `v` at
the final key. (For an unsigned-integer key lodash would create an array
instead of a `{}`; the theorems' `noIndexSegs`/`bracketFree` hypotheses
keep such keys out of the paths this model is applied to.) -/
def lset : JObj → List String → JVal → JObj
  | o, [], _ => o
  | o, [k], v => setKey o k v
  | o, k :: k2 :: rest, v =>
    let child : JObj :=
      match getKey o k with
      | some (JVal.obj m) => m
      | _ => []
    setKey o k (JVal.obj (lset child (k2 :: rest) v))

/-- `set` from `@elastic/safer-lodash-set`: validates every parsed path
key against the prototype-polluting keys (throwing on a hit), then
performs the lodash `set`. The `path` argument is the parsed key list;
for bracket-free names `pathOf` produces exactly lodash's parse, so the
guard here coincides with the real library's on that fragment. -/
def saferSet (o : JObj) (path : List String) (v : JVal) : Except String JObj :=
  if path.any isForbidden then
    Except.error "Illegal access of object prototype"
  else
    Except.ok (lset o path v)

/-- The `dynamic` argument: `'strict' | boolean`. -/
inductive DynamicMode where
  | strict
  | dyn : Bool → DynamicMode
deriving DecidableEq, Repr

/-- The result shape `{ dynamic, properties }` (`IndexMappings`): the root
carries exactly a `dynamic` field and a `properties` field. -/
structure IndexMappings where
  dynamic : DynamicMode
  properties : JObj
deriving Repr

/-- Modelled from the spec: a `FieldMap` (common/field_map is not among the
provided sources) is a table of unique string keys to FieldDeclarations;
per spec §3 a declaration is a string-keyed record of schema attributes
(possibly including `name`, `required`, `array`), i.e. a `JObj`. -/
abbrev FieldMap := List (String × JObj)

/-- One iteration of the `fields.forEach` loop: destructure
`{ name, required, array, ...rest }` and `set` `rest` at the expanded path
of `field.name`. A non-string `name` makes `field.name.split` throw a
`TypeError` in JS, modelled as an error. -/
def processField (acc : JObj) (field : JObj) : Except String JObj :=
  match getKey field "name" with
  | some (JVal.str name) => saferSet acc (pathOf name) (JVal.obj (omitKeys field rmKeys))
  | _ => Except.error "TypeError: field.name.split is not a function"

/-- The `fields.forEach` loop itself: sequential, an exception aborts. -/
def runFields (acc : JObj) : List JObj → Except String JObj
  | [] => Except.ok acc
  | f :: rest =>
    match processField acc f with
    | Except.ok acc' => runFields acc' rest
    | Except.error e => Except.error e

/-- The `fields` array: `Object.keys(fieldMap).map(key => ({ name: key,
...fieldMap[key] }))`, enumerated in insertion order. -/
def fieldsOf (fieldMap : FieldMap) : List JObj :=
  fieldMap.map (fun kv => spreadInto [("name", JVal.str kv.fst)] kv.snd)

/-- Pure embedding of `mappingFromFieldMap`: build `fields`, run the
`forEach` loop against the initially empty `mappings.properties`, and
return `{ dynamic, properties }`. -/
def mappingFromFieldMap (fieldMap : FieldMap) (dynamic : DynamicMode) :
    Except String IndexMappings :=
  match runFields [] (fieldsOf fieldMap) with
  | Except.ok properties => Except.ok { dynamic := dynamic, properties := properties }
  | Except.error e => Except.error e

/-- The merged per-field object `{ name: key, ...field }`. -/
def mergedField (key : String) (decl : JObj) : JObj :=
  spreadInto [("name", JVal.str key)] decl

/-- The `name` the loop body reads (`field.name` of the merged object):
the declaration's own `name` attribute when present, else the table key. -/
def effName (key : String) (decl : JObj) : Option JVal :=
  getKey (mergedField key decl) "name"

/-- The leaf object the loop body places for a field: the merged object
minus `name`, `required`, `array`. -/
def restOf (key : String) (decl : JObj) : JObj :=
  omitKeys (mergedField key decl) rmKeys

/-- Whether an entry's effective name is a string (otherwise
`field.name.split` throws a `TypeError`). -/
def nameOk (e : String × JObj) : Bool :=
  match effName e.1 e.2 with
  | some (JVal.str _) => true
  | _ => false

/-- The entry's effective name as a string (meaningful when `nameOk`). -/
def entryName (e : String × JObj) : String :=
  match effName e.1 e.2 with
  | some (JVal.str s) => s
  | _ => ""

/-- Well-formed dotted name per the spec: every dot-segment is non-empty. -/
def wfName (s : String) : Bool :=
  (segsOf s).all (fun seg => !(seg == ""))

/-- The expanded path of a name avoids the safer-set guard. -/
def safePath (s : String) : Bool :=
  !((pathOf s).any isForbidden)

/-- Lodash's unsigned-integer test (`reIsUint`) for a path segment: such a
segment would make lodash create an array instead of a plain object. -/
def reIsUint (s : String) : Bool :=
  match s.toList with
  | [] => false
  | [c] => c.isDigit
  | c :: rest => ('1' ≤ c && c ≤ '9') && rest.all Char.isDigit

/-- No segment of the name is an array-index string, so lodash `set` stays
within plain objects (the domain our `lset` models). -/
def noIndexSegs (s : String) : Bool :=
  (segsOf s).all (fun seg => !(reIsUint seg))

/-- The name contains no `[` or `]`. Lodash's `stringToPath` has an
extended grammar beyond dot-splitting: a bracket group is parsed as its
own key (`'a[0]' ↦ ['a','0']`, `'a[constructor]' ↦ ['a','constructor']`),
index keys make lodash create arrays, and the safer-set guard applies to
the parsed keys. On bracket-free names `stringToPath` splits the joined
string purely on dots, which is exactly what `pathOf` computes, so the
dot-split model of `pathOf`/`saferSet`/`lset` is exact precisely there;
theorems about placement and guard behaviour carry this hypothesis. -/
def bracketFree (s : String) : Bool :=
  !(s.toList.any (fun c => c == '[' || c == ']'))

/-- Hypothesis bundle for one table entry: its effective name is a string,
well-formed, guard-safe, free of array-index segments, and bracket-free
(within the path grammar fragment the model covers). -/
abbrev goodEntry (e : String × JObj) : Prop :=
  nameOk e = true ∧ wfName (entryName e) = true ∧
    safePath (entryName e) = true ∧ noIndexSegs (entryName e) = true ∧
    bracketFree (entryName e) = true

/-- The compiled (path, leaf) pair an entry contributes to the build. -/
def toPV (e : String × JObj) : List String × JVal :=
  (pathOf (entryName e), JVal.obj (restOf e.1 e.2))

/-- Folding `lset` over a list of (path, value) pairs: the sequence of
mutations the `forEach` loop performs on `mappings.properties`. -/
def foldSets (o : JObj) (l : List (List String × JVal)) : JObj :=
  l.foldl (fun acc pv => lset acc pv.1 pv.2) o

/-- Two paths are comparable when one is a (segment-)prefix of the other;
placements at incomparable paths never disturb each other. -/
def pcomp (p q : List String) : Bool :=
  p.isPrefixOf q || q.isPrefixOf p

/-- Pairwise incomparability of the compiled paths of a list of entries. -/
def pairwiseOk : List (List String × JVal) → Bool
  | [] => true
  | pv :: rest => rest.all (fun pv' => !(pcomp pv.1 pv'.1)) && pairwiseOk rest

/-- Read the value at a segment path of a tree (descending only through
objects), the observation used to state where leaves end up. -/
def lookupPath : JObj → List String → Option JVal
  | o, [] => some (JVal.obj o)
  | o, [k] => getKey o k
  | o, k :: k2 :: rest =>
    match getKey o k with
    | some (JVal.obj m) => lookupPath m (k2 :: rest)
    | _ => none

/-- Read a path inside a value: empty path yields the value itself, longer
paths descend when the value is an object. -/
def lookupVal : JVal → List String → Option JVal
  | v, [] => some v
  | JVal.obj m, k :: rest => lookupPath m (k :: rest)
  | _, _ :: _ => none

/-- Shape of a value at a path: a scalar observation or an object node.
Two trees are deep-equal as nested maps exactly when they have the same
observation at every path. -/
inductive Obs where
  | leafS : String → Obs
  | leafB : Bool → Obs
  | leafN : Int → Obs
  | node : Obs
deriving DecidableEq, Repr

/-- The observation of a value. -/
def toObs : JVal → Obs
  | JVal.str s => Obs.leafS s
  | JVal.bool b => Obs.leafB b
  | JVal.num n => Obs.leafN n
  | JVal.obj _ => Obs.node

/-- The observation of a tree at a path. -/
def obsAt (o : JObj) (q : List String) : Option Obs :=
  (lookupPath o q).map toObs

/-- Structural identity of trees: equal observations at every path, i.e.
equality as nested maps (JS deep-equality, which ignores key insertion
order). -/
def ObsEq (o1 o2 : JObj) : Prop :=
  ∀ q, obsAt o1 q = obsAt o2 q

/-- Keys of an object are pairwise distinct (JS objects always satisfy
this; the association-list model has to state it). -/
def noDupKeys {α : Type} : List (String × α) → Bool
  | [] => true
  | (k, _) :: rest => !(rest.any (fun kv => kv.fst == k)) && noDupKeys rest

/-! ### Heap embedding

The pure embedding above cannot express reference sharing: in JavaScript,
`{ name: key, ...field }` and rest-destructuring copy nested attribute
values *by reference*, and `set` mutates the objects it descends through.
To settle the frame claim we re-embed the function over an explicit store
of objects; scalar values are immediate and object values are addresses. -/

/-- A heap value: a primitive, or a reference to an object in the store. -/
inductive HVal where
  | str : String → HVal
  | bool : Bool → HVal
  | num : Int → HVal
  | ref : Nat → HVal
deriving DecidableEq, Repr

/-- A stored object: insertion-ordered bindings of heap values. -/
abbrev HObj := List (String × HVal)

/-- The store: address `a` holds the object at index `a`. -/
abbrev Store := List HObj

/-- Whether a heap value is a primitive (not an object reference). -/
def isScalarH : HVal → Bool
  | HVal.ref _ => false
  | _ => true

/-- Dereference an address (a dangling address reads as `{}`; the runs we
consider never produce one). -/
def readObj (st : Store) (a : Nat) : HObj :=
  (st.get? a).getD []

/-- Overwrite the object at an address. -/
def writeObj (st : Store) (a : Nat) (o : HObj) : Store :=
  st.set a o

/-- Lodash `baseSet` over the store, starting at the object at `a`: reuse
the referenced object at an intermediate segment when the value there is a
reference, otherwise allocate a fresh `{}`, link it, and descend. -/
def lsetH : Store → Nat → List String → HVal → Store
  | st, _, [], _ => st
  | st, a, [k], v => writeObj st a (setKey (readObj st a) k v)
  | st, a, k :: k2 :: rest, v =>
    match getKey (readObj st a) k with
    | some (HVal.ref c) => lsetH st c (k2 :: rest) v
    | _ =>
      let c := st.length
      let st1 := st ++ [[]]
      let st2 := writeObj st1 a (setKey (readObj st1 a) k (HVal.ref c))
      lsetH st2 c (k2 :: rest) v

/-- Phase one of the heap run: allocate the merged `{ name: key, ...field }`
objects (shallow copies, attribute values shared by reference), returning
their addresses in table order. -/
def allocFields (st : Store) : List (String × Nat) → Store × List Nat
  | [] => (st, [])
  | kv :: rest =>
    let merged := spreadInto [("name", HVal.str kv.fst)] (readObj st kv.snd)
    let res := allocFields (st ++ [merged]) rest
    (res.1, st.length :: res.2)

/-- Phase two of the heap run, the `forEach` loop: allocate the shallow
`rest` object (values shared by reference) and `set` a reference to it at
the field's expanded path under the properties object `p0`. -/
def runFieldsH (p0 : Nat) (st : Store) : List Nat → Except String Store
  | [] => Except.ok st
  | fa :: rest =>
    match getKey (readObj st fa) "name" with
    | some (HVal.str name) =>
      let restObj := omitKeys (readObj st fa) rmKeys
      let ra := st.length
      let st1 := st ++ [restObj]
      if (pathOf name).any isForbidden then
        Except.error "Illegal access of object prototype"
      else runFieldsH p0 (lsetH st1 p0 (pathOf name) (HVal.ref ra)) rest
    | _ => Except.error "TypeError: field.name.split is not a function"

/-- Heap embedding of `mappingFromFieldMap`: the field table maps keys to
addresses of declaration objects living in `st0`. Returns the final store
and the address of the `properties` object. -/
def mappingFromFieldMapH (st0 : Store) (fieldMap : List (String × Nat)) :
    Except String (Store × Nat) :=
  let p0 := st0.length
  let st1 := st0 ++ [[]]
  let res := allocFields st1 fieldMap
  match runFieldsH p0 res.1 res.2 with
  | Except.ok stf => Except.ok (stf, p0)
  | Except.error e => Except.error e

/-- Fuel-bounded deep read of a heap value as a pure JSON value: the
"structural content" of a declaration, used to state that the input is (or
is not) left structurally equal by the builder. -/
def readVal : Nat → Store → HVal → Option JVal
  | 0, _, _ => none
  | _ + 1, _, HVal.str s => some (JVal.str s)
  | _ + 1, _, HVal.bool b => some (JVal.bool b)
  | _ + 1, _, HVal.num n => some (JVal.num n)
  | fuel + 1, st, HVal.ref a =>
    ((readObj st a).mapM
      (fun kv => (readVal fuel st kv.2).map (fun jv => (kv.1, jv)))).map JVal.obj

/-- A heap value never pointing below the watermark `n0` (the size of the
input store): primitives always qualify, references must be fresh. -/
def hvalHigh (n0 : Nat) : HVal → Prop
  | HVal.ref c => n0 ≤ c
  | _ => True

/-- Every binding of an object holds a high value. -/
def hobjHigh (n0 : Nat) (o : HObj) : Prop :=
  ∀ kv ∈ o, hvalHigh n0 kv.2

/-- Build-time store invariant: no object anywhere in the store references
an address below the watermark. -/
def refsHigh (n0 : Nat) (st : Store) : Prop :=
  ∀ o ∈ st, hobjHigh n0 o

/-- The two stores agree below the watermark: the input objects are
untouched. -/
def lowAgree (n0 : Nat) (st st' : Store) : Prop :=
  ∀ b, b < n0 → st'.get? b = st.get? b

/-! ### Association-list lemmas -/

theorem getKey_setKey_self {α : Type} (o : List (String × α)) (k : String) (v : α) :
    getKey (setKey o k v) k = some v := by
  induction o with
  | nil => simp [setKey, getKey]
  | cons kv rest ih =>
    by_cases h : kv.1 = k
    · simp [setKey, h, getKey]
    · simp [setKey, h, getKey, ih]

theorem getKey_setKey_ne {α : Type} (o : List (String × α)) (k k' : String) (v : α)
    (h : k' ≠ k) : getKey (setKey o k v) k' = getKey o k' := by
  have hne : k ≠ k' := fun he => h he.symm
  induction o with
  | nil => simp [setKey, getKey, hne]
  | cons kv rest ih =>
    by_cases hk : kv.1 = k
    · simp [setKey, hk, getKey, hne]
    · simp [setKey, hk, getKey, ih]

theorem setKey_of_getKey_none {α : Type} (o : List (String × α)) (k : String) (v : α)
    (h : getKey o k = none) : setKey o k v = o ++ [(k, v)] := by
  induction o with
  | nil => simp [setKey]
  | cons kv rest ih =>
    by_cases hk : kv.1 = k
    · simp [getKey, hk] at h
    · simp [getKey, hk] at h
      simp [setKey, hk, ih h]

theorem getKey_mem {α : Type} {o : List (String × α)} {k : String} {v : α}
    (h : getKey o k = some v) : (k, v) ∈ o := by
  induction o with
  | nil => simp [getKey] at h
  | cons kv rest ih =>
    by_cases hk : kv.1 = k
    · simp [getKey, hk] at h
      have hkv : kv = (k, v) := by cases kv with | mk a b => simp_all
      exact hkv ▸ List.mem_cons_self _ _
    · simp [getKey, hk] at h
      exact List.mem_cons_of_mem _ (ih h)

theorem mem_setKey {α : Type} {o : List (String × α)} {k : String} {v : α} {kv' : String × α}
    (h : kv' ∈ setKey o k v) : kv' = (k, v) ∨ kv' ∈ o := by
  induction o with
  | nil => simp [setKey] at h; simp [h]
  | cons kv rest ih =>
    by_cases hk : kv.1 = k
    · simp [setKey, hk] at h
      rcases h with h | h
      · exact Or.inl h
      · exact Or.inr (List.mem_cons_of_mem _ h)
    · simp only [setKey, hk, if_false] at h
      rcases List.mem_cons.mp h with h | h
      · exact Or.inr (h ▸ List.mem_cons_self _ _)
      · rcases ih h with h | h
        · exact Or.inl h
        · exact Or.inr (List.mem_cons_of_mem _ h)

theorem getKey_append_left {α : Type} {o1 : List (String × α)} (o2 : List (String × α))
    {k : String} {v : α} (h : getKey o1 k = some v) : getKey (o1 ++ o2) k = some v := by
  induction o1 with
  | nil => simp [getKey] at h
  | cons kv rest ih =>
    by_cases hk : kv.1 = k
    · simp [getKey, hk] at h ⊢; exact h
    · simp [getKey, hk] at h ⊢; exact ih h

theorem getKey_append_right {α : Type} {o1 : List (String × α)} (o2 : List (String × α))
    {k : String} (h : getKey o1 k = none) : getKey (o1 ++ o2) k = getKey o2 k := by
  induction o1 with
  | nil => simp
  | cons kv rest ih =>
    by_cases hk : kv.1 = k
    · simp [getKey, hk] at h
    · simp [getKey, hk] at h ⊢; exact ih h

theorem getKey_omitKeys_mem {α : Type} (o : List (String × α)) {ks : List String} {k : String}
    (h : k ∈ ks) : getKey (omitKeys o ks) k = none := by
  induction o with
  | nil => simp [omitKeys, getKey]
  | cons kv rest ih =>
    by_cases hk : kv.1 ∈ ks
    · simpa [omitKeys, hk] using ih
    · have hne : kv.1 ≠ k := fun he => by rw [he] at hk; exact hk h
      simpa [omitKeys, hk, getKey, hne] using ih

theorem getKey_omitKeys_not_mem {α : Type} (o : List (String × α)) {ks : List String}
    {k : String} (h : k ∉ ks) : getKey (omitKeys o ks) k = getKey o k := by
  induction o with
  | nil => simp [omitKeys]
  | cons kv rest ih =>
    by_cases hk : kv.1 ∈ ks
    · have hne : kv.1 ≠ k := fun he => h (he ▸ hk)
      simpa [omitKeys, hk, getKey, hne] using ih
    · by_cases hc : kv.1 = k
      · simp [omitKeys, hk, getKey, hc, h]
      · simpa [omitKeys, hk, getKey, hc] using ih

/-- Spreading a list of bindings whose keys are fresh for the base and
pairwise distinct just appends them. -/
theorem spreadInto_append {α : Type} (extra : List (String × α)) :
    ∀ base : List (String × α), noDupKeys extra = true →
      (∀ kv ∈ extra, getKey base kv.1 = none) →
      spreadInto base extra = base ++ extra := by
  induction extra with
  | nil => intro base _ _; simp [spreadInto]
  | cons kv rest ih =>
    intro base hnd hfresh
    simp only [noDupKeys, Bool.and_eq_true, Bool.not_eq_true'] at hnd
    have h1 : getKey base kv.1 = none := hfresh kv (List.mem_cons_self _ _)
    have hstep : setKey base kv.1 kv.2 = base ++ [kv] := by
      have := setKey_of_getKey_none base kv.1 kv.2 h1
      simpa using this
    have hfresh' : ∀ kv' ∈ rest, getKey (base ++ [kv]) kv'.1 = none := by
      intro kv' hm
      have hne : kv.1 ≠ kv'.1 := by
        intro he
        have hany : rest.any (fun kv0 => kv0.fst == kv.1) = true :=
          List.any_eq_true.mpr ⟨kv', hm, by simp [he.symm]⟩
        rw [hnd.1] at hany; cases hany
      rw [getKey_append_right _ (hfresh kv' (List.mem_cons_of_mem _ hm))]
      simp [getKey, hne]
    have : spreadInto (base ++ [kv]) rest = (base ++ [kv]) ++ rest := ih _ hnd.2 hfresh'
    calc spreadInto base (kv :: rest)
        = spreadInto (setKey base kv.1 kv.2) rest := rfl
      _ = spreadInto (base ++ [kv]) rest := by rw [hstep]
      _ = base ++ kv :: rest := by rw [this]; simp

/-- Reading any key through a spread: the extra bindings take precedence
(for a duplicate-free extra list, matching a JS source object). -/
theorem getKey_spreadInto {α : Type} (extra : List (String × α)) :
    ∀ (base : List (String × α)) (k : String), noDupKeys extra = true →
      getKey (spreadInto base extra) k =
        match getKey extra k with
        | some v => some v
        | none => getKey base k := by
  induction extra with
  | nil => intro base k _; simp [spreadInto, getKey]
  | cons kv rest ih =>
    intro base k hnd
    simp only [noDupKeys, Bool.and_eq_true, Bool.not_eq_true'] at hnd
    have hrec := ih (setKey base kv.1 kv.2) k hnd.2
    by_cases hc : kv.1 = k
    · have hnone : getKey rest k = none := by
        cases hg : getKey rest k with
        | none => rfl
        | some v =>
          have hm := getKey_mem hg
          have hany : rest.any (fun kv0 => kv0.fst == kv.1) = true :=
            List.any_eq_true.mpr ⟨(k, v), hm, by simp [hc]⟩
          rw [hnd.1] at hany; cases hany
      have : spreadInto base (kv :: rest) = spreadInto (setKey base kv.1 kv.2) rest := rfl
      rw [this, hrec, hnone]
      simp [getKey, hc, hc ▸ getKey_setKey_self base kv.1 kv.2]
    · have : spreadInto base (kv :: rest) = spreadInto (setKey base kv.1 kv.2) rest := rfl
      rw [this, hrec, getKey_setKey_ne base kv.1 k kv.2 (fun he => hc he.symm)]
      simp [getKey, hc]

/-- `omitKeys` ignores a leading binding whose key is omitted. -/
theorem omitKeys_cons_mem {α : Type} (kv : String × α) (o : List (String × α))
    {ks : List String} (h : kv.1 ∈ ks) :
    omitKeys (kv :: o) ks = omitKeys o ks := by
  simp [omitKeys, h]

/-- Omitting keys distributes over append. -/
theorem omitKeys_append {α : Type} (o1 o2 : List (String × α)) (ks : List String) :
    omitKeys (o1 ++ o2) ks = omitKeys o1 ks ++ omitKeys o2 ks := by
  induction o1 with
  | nil => simp [omitKeys]
  | cons kv rest ih =>
    by_cases hk : kv.1 ∈ ks <;> simp [omitKeys, hk, ih]

/-- Updating a to-be-omitted key does not change the omitted view. -/
theorem omitKeys_setKey {α : Type} (o : List (String × α)) (k : String) (v : α)
    {ks : List String} (h : k ∈ ks) :
    omitKeys (setKey o k v) ks = omitKeys o ks := by
  induction o with
  | nil => simp [setKey, omitKeys, h]
  | cons kv rest ih =>
    by_cases hk : kv.1 = k
    · simp [setKey, hk, omitKeys, h]
    · simp only [setKey, hk, if_false]
      by_cases hm : kv.1 ∈ ks <;> simp [omitKeys, hm, ih]

/-- Omitting keys through a spread: when every spread key either is fresh
for the base or is among the omitted keys, the omitted view of the spread
is the omitted view of the base followed by that of the extra bindings. -/
theorem omitKeys_spreadInto {α : Type} {ks : List String} (l : List (String × α)) :
    ∀ b : List (String × α), noDupKeys l = true →
      (∀ kv ∈ l, getKey b kv.1 = none ∨ kv.1 ∈ ks) →
      omitKeys (spreadInto b l) ks = omitKeys b ks ++ omitKeys l ks := by
  induction l with
  | nil => intro b _ _; simp [spreadInto, omitKeys]
  | cons kv rest ih =>
    intro b hnd hcond
    simp only [noDupKeys, Bool.and_eq_true, Bool.not_eq_true'] at hnd
    have hkne : ∀ kv' ∈ rest, kv'.1 ≠ kv.1 := by
      intro kv' hm he
      have hany : rest.any (fun kv0 => kv0.fst == kv.1) = true :=
        List.any_eq_true.mpr ⟨kv', hm, by simp [he]⟩
      rw [hnd.1] at hany; cases hany
    have hstep : spreadInto b (kv :: rest) = spreadInto (setKey b kv.1 kv.2) rest := rfl
    by_cases hin : kv.1 ∈ ks
    · have hcond' : ∀ kv' ∈ rest, getKey (setKey b kv.1 kv.2) kv'.1 = none ∨
          kv'.1 ∈ ks := by
        intro kv' hm
        rw [getKey_setKey_ne b kv.1 kv'.1 kv.2 (hkne kv' hm)]
        exact hcond kv' (List.mem_cons_of_mem _ hm)
      rw [hstep, ih _ hnd.2 hcond', omitKeys_setKey b kv.1 kv.2 hin,
        omitKeys_cons_mem kv rest hin]
    · have hb : getKey b kv.1 = none := by
        rcases hcond kv (List.mem_cons_self _ _) with h | h
        · exact h
        · exact absurd h hin
      have happ : setKey b kv.1 kv.2 = b ++ [kv] := by
        have := setKey_of_getKey_none b kv.1 kv.2 hb
        simpa using this
      have hcond' : ∀ kv' ∈ rest, getKey (b ++ [kv]) kv'.1 = none ∨
          kv'.1 ∈ ks := by
        intro kv' hm
        rcases hcond kv' (List.mem_cons_of_mem _ hm) with h | h
        · left
          rw [getKey_append_right _ h]
          have hne : kv.1 ≠ kv'.1 := fun he => hkne kv' hm he.symm
          simp [getKey, hne]
        · right; exact h
      rw [hstep, happ, ih _ hnd.2 hcond', omitKeys_append]
      have hko : omitKeys [kv] ks = [kv] := by simp [omitKeys, hin]
      have hrest : omitKeys (kv :: rest) ks = kv :: omitKeys rest ks := by
        simp [omitKeys, hin]
      rw [hko, hrest]
      simp

/-- The leaf placed for a field is the declaration minus
`name`/`required`/`array` (for a duplicate-free declaration): merging
`{ name: key, ...decl }` and then dropping the three keys drops exactly
them. -/
theorem restOf_eq_omit (key : String) (decl : JObj) (hnd : noDupKeys decl = true) :
    restOf key decl = omitKeys decl rmKeys := by
  unfold restOf mergedField
  rw [omitKeys_spreadInto decl [("name", JVal.str key)] hnd ?cond]
  · have : omitKeys [("name", JVal.str key)] rmKeys = [] := rfl
    rw [this]; simp
  case cond =>
    intro kv _
    by_cases hk : kv.1 = "name"
    · right; simp [rmKeys, hk]
    · left
      have hne : ¬("name" = kv.1) := fun he => hk he.symm
      simp [getKey, hne]

/-! ### Prefix and path lemmas -/

theorem prefix_exists {p q : List String} (h : p.isPrefixOf q = true) :
    ∃ t, q = p ++ t := by
  obtain ⟨t, ht⟩ := List.isPrefixOf_iff_prefix.mp h
  exact ⟨t, ht.symm⟩

theorem prefix_of_append (p t : List String) : p.isPrefixOf (p ++ t) = true :=
  List.isPrefixOf_iff_prefix.mpr ⟨t, rfl⟩

theorem pcomp_nil_left (q : List String) : pcomp [] q = true := by
  simp [pcomp, List.isPrefixOf]

theorem pcomp_nil_right (p : List String) : pcomp p [] = true := by
  simp [pcomp, List.isPrefixOf]

theorem pcomp_cons_same (k : String) (p q : List String) :
    pcomp (k :: p) (k :: q) = pcomp p q := by
  simp [pcomp, List.isPrefixOf]

theorem pcomp_self (p : List String) : pcomp p p = true := by
  simp [pcomp, prefix_of_append p []]

theorem pcomp_comm (p q : List String) : pcomp p q = pcomp q p := by
  simp [pcomp, Bool.or_comm]

/-- An empty tree holds nothing at a non-empty path. -/
theorem lookupPath_nil {q : List String} (h : q ≠ []) :
    lookupPath [] q = none := by
  cases q with
  | nil => exact absurd rfl h
  | cons k t => cases t <;> simp [lookupPath, getKey]

/-- Placement: after `lset o p v`, reading `p ++ t` reads `t` inside `v`. -/
theorem lookupPath_lset_self (p : List String) :
    ∀ (o : JObj) (t : List String) (v : JVal), p ≠ [] →
      lookupPath (lset o p v) (p ++ t) = lookupVal v t := by
  induction p with
  | nil => intro o t v h; exact absurd rfl h
  | cons k p' ih =>
    intro o t v _
    cases p' with
    | nil =>
      cases t with
      | nil => simp [lset, lookupPath, getKey_setKey_self, lookupVal]
      | cons t1 t'' =>
        cases v with
        | str s => simp [lset, lookupPath, getKey_setKey_self, lookupVal]
        | bool b => simp [lset, lookupPath, getKey_setKey_self, lookupVal]
        | num n => simp [lset, lookupPath, getKey_setKey_self, lookupVal]
        | obj m => simp [lset, lookupPath, getKey_setKey_self, lookupVal]
    | cons p1 p'' =>
      have hstep : lset o (k :: p1 :: p'') v =
          setKey o k (JVal.obj (lset
            (match getKey o k with
             | some (JVal.obj m) => m
             | _ => []) (p1 :: p'') v)) := rfl
      rw [hstep]
      have happ : (k :: p1 :: p'') ++ t = k :: p1 :: (p'' ++ t) := rfl
      rw [happ]
      simp only [lookupPath, getKey_setKey_self]
      exact ih _ t v (by simp)

/-- Preservation: `lset` at `p` does not change the reading of any path `q`
incomparable with `p`. -/
theorem lookupPath_lset_incomp (p : List String) :
    ∀ (o : JObj) (q : List String) (v : JVal), pcomp p q = false →
      lookupPath (lset o p v) q = lookupPath o q := by
  induction p with
  | nil => intro o q v h; rw [pcomp_nil_left] at h; cases h
  | cons k p' ih =>
    intro o q v h
    cases q with
    | nil => rw [pcomp_nil_right] at h; cases h
    | cons k1 t =>
      by_cases hk : k1 = k
      · subst hk
        rw [pcomp_cons_same] at h
        have hp' : p' ≠ [] := by
          intro he; subst he
          rw [show pcomp [] t = true from pcomp_nil_left t] at h; cases h
        have ht : t ≠ [] := by
          intro he; subst he
          rw [pcomp_nil_right] at h; cases h
        cases p' with
        | nil => exact absurd rfl hp'
        | cons p1 p'' =>
          cases t with
          | nil => exact absurd rfl ht
          | cons t1 t' =>
            have hstep : lset o (k1 :: p1 :: p'') v =
                setKey o k1 (JVal.obj (lset
                  (match getKey o k1 with
                   | some (JVal.obj m) => m
                   | _ => []) (p1 :: p'') v)) := rfl
            rw [hstep]
            simp only [lookupPath, getKey_setKey_self]
            cases hg : getKey o k1 with
            | none =>
              simp only [hg]
              rw [ih [] (t1 :: t') v h, lookupPath_nil (by simp)]
            | some w =>
              cases w with
              | obj m => simp only [hg]; rw [ih m (t1 :: t') v h]
              | str s =>
                simp only [hg]
                rw [ih [] (t1 :: t') v h, lookupPath_nil (by simp)]
              | bool b =>
                simp only [hg]
                rw [ih [] (t1 :: t') v h, lookupPath_nil (by simp)]
              | num n =>
                simp only [hg]
                rw [ih [] (t1 :: t') v h, lookupPath_nil (by simp)]
      · have hne : k ≠ k1 := fun he => hk he.symm
        cases p' with
        | nil =>
          cases t with
          | nil => simp [lset, lookupPath, getKey_setKey_ne o k k1 v hk]
          | cons t1 t' => simp [lset, lookupPath, getKey_setKey_ne o k k1 v hk]
        | cons p1 p'' =>
          have hstep : lset o (k :: p1 :: p'') v =
              setKey o k (JVal.obj (lset
                (match getKey o k with
                 | some (JVal.obj m) => m
                 | _ => []) (p1 :: p'') v)) := rfl
          rw [hstep]
          cases t with
          | nil => simp [lookupPath, getKey_setKey_ne o k k1 _ hk]
          | cons t1 t' => simp [lookupPath, getKey_setKey_ne o k k1 _ hk]

/-- A proper prefix of the set path reads an object node. -/
theorem lookupPath_lset_proper (p : List String) :
    ∀ (o : JObj) (q : List String) (v : JVal), q.isPrefixOf p = true → q ≠ p →
      ∃ m, lookupPath (lset o p v) q = some (JVal.obj m) := by
  induction p with
  | nil =>
    intro o q v hq hne
    cases q with
    | nil => exact absurd rfl hne
    | cons a b => simp [List.isPrefixOf] at hq
  | cons k p' ih =>
    intro o q v hq hne
    cases q with
    | nil => exact ⟨lset o (k :: p') v, rfl⟩
    | cons k1 q' =>
      obtain ⟨hk1, hq'⟩ : k1 = k ∧ q'.isPrefixOf p' = true := by
        simpa [List.isPrefixOf] using hq
      subst hk1
      have hne' : q' ≠ p' := fun he => hne (by rw [he])
      cases p' with
      | nil =>
        cases q' with
        | nil => exact absurd rfl hne'
        | cons a b => simp [List.isPrefixOf] at hq'
      | cons p1 p'' =>
        have hstep : lset o (k1 :: p1 :: p'') v =
            setKey o k1 (JVal.obj (lset
              (match getKey o k1 with
               | some (JVal.obj m) => m
               | _ => []) (p1 :: p'') v)) := rfl
        rw [hstep]
        cases q' with
        | nil =>
          refine ⟨lset (match getKey o k1 with
              | some (JVal.obj m) => m
              | _ => []) (p1 :: p'') v, ?_⟩
          simp [lookupPath, getKey_setKey_self]
        | cons q1 q'' =>
          obtain ⟨m, hm⟩ := ih _ (q1 :: q'') v hq' hne'
          refine ⟨m, ?_⟩
          simp only [lookupPath, getKey_setKey_self]
          exact hm


/-- `split('.')` never returns an empty list. -/
theorem splitDots_ne_nil (l : List Char) : splitDots l ≠ [] := by
  induction l with
  | nil => simp [splitDots]
  | cons c rest ih =>
    by_cases h : c = '.'
    · simp [splitDots, h]
    · simp only [splitDots, h, if_false]
      cases hs : splitDots rest with
      | nil => exact absurd hs ih
      | cons s ss => simp

theorem segsOf_ne_nil (s : String) : segsOf s ≠ [] := by
  unfold segsOf
  intro h
  exact splitDots_ne_nil s.toList (List.map_eq_nil_iff.mp h)

/-- The expanded lodash path of any name is non-empty. -/
theorem pathOf_ne_nil (s : String) : pathOf s ≠ [] := by
  unfold pathOf
  cases hs : segsOf s with
  | nil => exact absurd hs (segsOf_ne_nil s)
  | cons a t => cases t <;> simp [List.intersperse]

/-- Reading the empty path inside a value gives the value. -/
theorem lookupVal_nil (v : JVal) : lookupVal v [] = some v := by
  cases v <;> rfl

/-! ### Fold lemmas: where each field's leaf ends up -/

theorem foldSets_cons (o : JObj) (pv : List String × JVal)
    (l : List (List String × JVal)) :
    foldSets o (pv :: l) = foldSets (lset o pv.1 pv.2) l := rfl

/-- Mutations at paths all incomparable with `q` do not change the reading
of `q`. -/
theorem foldSets_incomp (l : List (List String × JVal)) :
    ∀ (o : JObj) (q : List String), (∀ pv ∈ l, pcomp pv.1 q = false) →
      lookupPath (foldSets o l) q = lookupPath o q := by
  induction l with
  | nil => intro o q _; rfl
  | cons pv rest ih =>
    intro o q h
    rw [foldSets_cons, ih _ q (fun pv' h' => h pv' (List.mem_cons_of_mem _ h')),
      lookupPath_lset_incomp _ _ _ _ (h pv (List.mem_cons_self _ _))]

/-- Unpack one step of `pairwiseOk`. -/
theorem pairwiseOk_cons {pv : List String × JVal} {l : List (List String × JVal)}
    (h : pairwiseOk (pv :: l) = true) :
    (∀ pv' ∈ l, pcomp pv.1 pv'.1 = false) ∧ pairwiseOk l = true := by
  simp only [pairwiseOk, Bool.and_eq_true, List.all_eq_true, Bool.not_eq_true'] at h
  exact ⟨h.1, h.2⟩

/-- Main placement lemma: with pairwise incomparable non-empty paths, the
final tree holds each pair's value at its path. -/
theorem foldSets_places (l : List (List String × JVal)) :
    ∀ o : JObj, pairwiseOk l = true → (∀ pv ∈ l, pv.1 ≠ []) →
      ∀ pv ∈ l, lookupPath (foldSets o l) pv.1 = some pv.2 := by
  induction l with
  | nil => intro o _ _ pv h; cases h
  | cons e rest ih =>
    intro o hpw hne pv hm
    obtain ⟨hhead, htail⟩ := pairwiseOk_cons hpw
    rcases List.mem_cons.mp hm with he | hm'
    · subst he
      rw [foldSets_cons, foldSets_incomp rest _ pv.1
        (fun pv' h' => by rw [pcomp_comm]; exact hhead pv' h')]
      have := lookupPath_lset_self pv.1 o [] pv.2 (hne pv (List.mem_cons_self _ _))
      rw [List.append_nil] at this
      rw [this, lookupVal_nil]
    · exact ih _ htail (fun pv' h' => hne pv' (List.mem_cons_of_mem _ h')) pv hm'

/-! ### Reducing the builder to the fold -/

/-- When an entry's effective name is a string, it is `entryName`. -/
theorem effName_of_nameOk {e : String × JObj} (h : nameOk e = true) :
    effName e.1 e.2 = some (JVal.str (entryName e)) := by
  cases hg : effName e.1 e.2 with
  | none => simp [nameOk, hg] at h
  | some v =>
    cases v with
    | str s => simp [entryName, hg]
    | bool b => simp [nameOk, hg] at h
    | num n => simp [nameOk, hg] at h
    | obj m => simp [nameOk, hg] at h

/-- The `forEach` loop succeeds and performs exactly the fold of `lset`
over the compiled (path, leaf) pairs, provided every effective name is a
string with a guard-safe path. -/
theorem runFields_ok (l : List (String × JObj)) :
    ∀ acc : JObj, (∀ e ∈ l, nameOk e = true ∧ safePath (entryName e) = true) →
      runFields acc (fieldsOf l) = Except.ok (foldSets acc (l.map toPV)) := by
  induction l with
  | nil => intro acc _; rfl
  | cons e rest ih =>
    intro acc h
    have he := h e (List.mem_cons_self _ _)
    have hname : getKey (mergedField e.1 e.2) "name" =
        some (JVal.str (entryName e)) := effName_of_nameOk he.1
    have hguard : (pathOf (entryName e)).any isForbidden = false := by
      have h2 := he.2
      unfold safePath at h2
      simpa using h2
    have hfields : fieldsOf (e :: rest) = mergedField e.1 e.2 :: fieldsOf rest := rfl
    rw [hfields]
    show (match processField acc (mergedField e.1 e.2) with
      | Except.ok acc' => runFields acc' (fieldsOf rest)
      | Except.error msg => Except.error msg) = _
    rw [processField, hname]
    show (match saferSet acc (pathOf (entryName e))
        (JVal.obj (omitKeys (mergedField e.1 e.2) rmKeys)) with
      | Except.ok acc' => runFields acc' (fieldsOf rest)
      | Except.error msg => Except.error msg) = _
    rw [saferSet, hguard]
    show runFields (lset acc (pathOf (entryName e)) (JVal.obj (restOf e.1 e.2)))
        (fieldsOf rest) = _
    rw [ih _ (fun e' h' => h e' (List.mem_cons_of_mem _ h'))]
    rfl

/-- The builder, under the same conditions: success with the folded tree. -/
theorem mapping_ok (fm : FieldMap) (d : DynamicMode)
    (h : ∀ e ∈ fm, nameOk e = true ∧ safePath (entryName e) = true) :
    mappingFromFieldMap fm d =
      Except.ok { dynamic := d, properties := foldSets [] (fm.map toPV) } := by
  unfold mappingFromFieldMap
  rw [runFields_ok fm [] h]

/-! ### Claim theorems -/

/-- C1 (counterexample): the claim fails as stated — in the table
`{ "a.b": {type: text}, "a": {type: keyword} }` both names are well-formed,
yet the leaf attributes of `a.b` do not sit at
`properties.a.properties.b`: the later placement of `a` overwrote the
whole `a` subtree, so the path reads nothing at all. -/
theorem c1_counterexample :
    wfName "a.b" = true ∧ wfName "a" = true ∧
    mappingFromFieldMap
      [("a.b", [("type", JVal.str "text")]), ("a", [("type", JVal.str "keyword")])]
      DynamicMode.strict =
      Except.ok { dynamic := DynamicMode.strict
                  properties := [("a", JVal.obj [("type", JVal.str "keyword")])] } ∧
    lookupPath [("a", JVal.obj [("type", JVal.str "keyword")])] (pathOf "a.b") = none :=
  ⟨rfl, rfl, rfl, rfl⟩

/-- C1 (amended): for every field table whose entries have string,
well-formed, guard-safe, index-free, bracket-free effective names (so
lodash's parsed path is exactly the dot-split one) with pairwise
incomparable expanded paths (no name a segment-prefix of another), the
builder succeeds and places each field's leaf attributes at
`properties.s1.properties.s2.….properties.sn` for its name's segments
`s1..sn` — in particular directly under `properties[name]` for a dot-free
name. -/
theorem c1_amended (fm : FieldMap) (d : DynamicMode)
    (hg : ∀ e ∈ fm, goodEntry e)
    (hpw : pairwiseOk (fm.map toPV) = true) :
    ∃ props,
      mappingFromFieldMap fm d = Except.ok { dynamic := d, properties := props } ∧
      ∀ e ∈ fm, lookupPath props (pathOf (entryName e)) =
        some (JVal.obj (restOf e.1 e.2)) := by
  refine ⟨foldSets [] (fm.map toPV),
    mapping_ok fm d (fun e he => ⟨(hg e he).1, (hg e he).2.2.1⟩), ?_⟩
  intro e he
  exact foldSets_places (fm.map toPV) [] hpw
    (fun pv hpv => by
      obtain ⟨e', _, rfl⟩ := List.mem_map.mp hpv
      exact pathOf_ne_nil _)
    (toPV e) (List.mem_map.mpr ⟨e, he, rfl⟩)

theorem c1_amended_witness :
    ∃ props,
      mappingFromFieldMap
        [("a", [("type", JVal.str "x")]), ("b.c", [("type", JVal.str "y")])]
        DynamicMode.strict = Except.ok { dynamic := DynamicMode.strict
                                         properties := props } ∧
      ∀ e ∈ ([("a", [("type", JVal.str "x")]),
              ("b.c", [("type", JVal.str "y")])] : FieldMap),
        lookupPath props (pathOf (entryName e)) =
          some (JVal.obj (restOf e.1 e.2)) :=
  c1_amended _ _ (by decide) (by decide)

/-- C2 (counterexample): the claim fails as stated, twice over. First, a
declaration carrying a `name` attribute loses it: for
`{ "a": {name: "a", type: "t"} }` the placed leaf is `{type: "t"}`,
not the declaration minus `required`/`array` (which keeps `name`).
Second, with `{ "a.b": …, "a": … }` the leaf of `a.b` is not at its path
at all. -/
theorem c2_counterexample :
    (mappingFromFieldMap [("a", [("name", JVal.str "a"), ("type", JVal.str "t")])]
        (DynamicMode.dyn false) =
      Except.ok { dynamic := DynamicMode.dyn false
                  properties := [("a", JVal.obj [("type", JVal.str "t")])] }) ∧
    omitKeys [("name", JVal.str "a"), ("type", JVal.str "t")] ["required", "array"] =
      [("name", JVal.str "a"), ("type", JVal.str "t")] ∧
    JVal.obj [("type", JVal.str "t")] ≠
      JVal.obj [("name", JVal.str "a"), ("type", JVal.str "t")] ∧
    mappingFromFieldMap
      [("a.b", [("type", JVal.str "text")]), ("a", [("type", JVal.str "keyword")])]
      (DynamicMode.dyn false) =
      Except.ok { dynamic := DynamicMode.dyn false
                  properties := [("a", JVal.obj [("type", JVal.str "keyword")])] } ∧
    lookupPath [("a", JVal.obj [("type", JVal.str "keyword")])] (pathOf "a.b") = none := by
  refine ⟨rfl, rfl, ?_, rfl, rfl⟩
  simp

/-- C2 (amended): for every field table with duplicate-free declarations
whose effective names are strings, well-formed, guard-safe, index-free,
bracket-free and pairwise non-prefix-comparable, the leaf placed at each
field's path is exactly the declaration minus the `name`, `required` and
`array` attributes; all other attributes are kept unchanged. -/
theorem c2_amended (fm : FieldMap) (d : DynamicMode)
    (hg : ∀ e ∈ fm, goodEntry e)
    (hnd : ∀ e ∈ fm, noDupKeys e.2 = true)
    (hpw : pairwiseOk (fm.map toPV) = true) :
    ∃ props,
      mappingFromFieldMap fm d = Except.ok { dynamic := d, properties := props } ∧
      ∀ e ∈ fm, ∃ leaf,
        lookupPath props (pathOf (entryName e)) = some (JVal.obj leaf) ∧
        leaf = omitKeys e.2 rmKeys ∧
        getKey leaf "required" = none ∧ getKey leaf "array" = none ∧
        getKey leaf "name" = none ∧
        ∀ k, k ∉ rmKeys → getKey leaf k = getKey e.2 k := by
  refine ⟨foldSets [] (fm.map toPV),
    mapping_ok fm d (fun e he => ⟨(hg e he).1, (hg e he).2.2.1⟩), ?_⟩
  intro e he
  refine ⟨restOf e.1 e.2, ?_, ?_, ?_, ?_, ?_, ?_⟩
  · exact foldSets_places (fm.map toPV) [] hpw
      (fun pv hpv => by
        obtain ⟨e', _, rfl⟩ := List.mem_map.mp hpv
        exact pathOf_ne_nil _)
      (toPV e) (List.mem_map.mpr ⟨e, he, rfl⟩)
  · exact restOf_eq_omit e.1 e.2 (hnd e he)
  · show getKey (omitKeys (mergedField e.1 e.2) rmKeys) "required" = none
    exact getKey_omitKeys_mem _ (by simp [rmKeys])
  · show getKey (omitKeys (mergedField e.1 e.2) rmKeys) "array" = none
    exact getKey_omitKeys_mem _ (by simp [rmKeys])
  · show getKey (omitKeys (mergedField e.1 e.2) rmKeys) "name" = none
    exact getKey_omitKeys_mem _ (by simp [rmKeys])
  · intro k hk
    rw [restOf_eq_omit e.1 e.2 (hnd e he)]
    exact getKey_omitKeys_not_mem _ hk

theorem c2_amended_witness :
    ∃ props,
      mappingFromFieldMap
        [("host.ip", [("type", JVal.str "ip"), ("required", JVal.bool true)]),
         ("message", [("type", JVal.str "text"), ("array", JVal.bool false)])]
        (DynamicMode.dyn true) = Except.ok { dynamic := DynamicMode.dyn true
                                             properties := props } ∧
      ∀ e ∈ ([("host.ip", [("type", JVal.str "ip"), ("required", JVal.bool true)]),
              ("message", [("type", JVal.str "text"), ("array", JVal.bool false)])] :
              FieldMap),
        ∃ leaf,
          lookupPath props (pathOf (entryName e)) = some (JVal.obj leaf) ∧
          leaf = omitKeys e.2 rmKeys ∧
          getKey leaf "required" = none ∧ getKey leaf "array" = none ∧
          getKey leaf "name" = none ∧
          ∀ k, k ∉ rmKeys → getKey leaf k = getKey e.2 k :=
  c2_amended _ _ (by decide) (by decide) (by decide)

/-- C3 (confirmed): whenever the builder returns, the returned root is
exactly `{ dynamic, properties }` with `dynamic` the supplied mode (the
`IndexMappings` type has exactly those two fields). -/
theorem c3_root_shape (fm : FieldMap) (d : DynamicMode) (r : IndexMappings)
    (h : mappingFromFieldMap fm d = Except.ok r) :
    r.dynamic = d ∧ r = { dynamic := d, properties := r.properties } := by
  unfold mappingFromFieldMap at h
  cases hr : runFields [] (fieldsOf fm) with
  | ok props =>
    rw [hr] at h
    injection h with h
    subst h
    exact ⟨rfl, rfl⟩
  | error e => rw [hr] at h; cases h

theorem c3_root_shape_witness :
    ({ dynamic := DynamicMode.strict
       properties := [("user", JVal.obj [("properties", JVal.obj
         [("name", JVal.obj [("type", JVal.str "text")])])])] } :
        IndexMappings).dynamic = DynamicMode.strict ∧
    ({ dynamic := DynamicMode.strict
       properties := [("user", JVal.obj [("properties", JVal.obj
         [("name", JVal.obj [("type", JVal.str "text")])])])] } :
        IndexMappings) =
      { dynamic := DynamicMode.strict
        properties :=
          ({ dynamic := DynamicMode.strict
             properties := [("user", JVal.obj [("properties", JVal.obj
               [("name", JVal.obj [("type", JVal.str "text")])])])] } :
              IndexMappings).properties } :=
  c3_root_shape
    [("user.name", [("type", JVal.str "text"), ("required", JVal.bool true)])]
    DynamicMode.strict _ rfl

/-- C5 (confirmed): the builder is deterministic over its arguments — two
invocations on the same table and mode return equal results, hence
structurally equal trees. -/
theorem c5_deterministic (fm : FieldMap) (d : DynamicMode) (r1 r2 : IndexMappings)
    (h1 : mappingFromFieldMap fm d = Except.ok r1)
    (h2 : mappingFromFieldMap fm d = Except.ok r2) :
    r1 = r2 ∧ ObsEq r1.properties r2.properties := by
  rw [h1] at h2
  injection h2 with h2
  subst h2
  exact ⟨rfl, fun q => rfl⟩

theorem c5_deterministic_witness :
    ({ dynamic := DynamicMode.strict
       properties := [("user", JVal.obj [("properties", JVal.obj
         [("name", JVal.obj [("type", JVal.str "text")])])])] } :
        IndexMappings) =
      { dynamic := DynamicMode.strict
        properties := [("user", JVal.obj [("properties", JVal.obj
          [("name", JVal.obj [("type", JVal.str "text")])])])] } ∧
    ObsEq
      [("user", JVal.obj [("properties", JVal.obj
        [("name", JVal.obj [("type", JVal.str "text")])])])]
      [("user", JVal.obj [("properties", JVal.obj
        [("name", JVal.obj [("type", JVal.str "text")])])])] :=
  c5_deterministic
    [("user.name", [("type", JVal.str "text"), ("required", JVal.bool true)])]
    DynamicMode.strict _ _ rfl rfl

/-- C7 (confirmed): the spec's worked example — input
`{ "user.name": { type: "text", required: true } }` with `dynamicMode =
"strict"` yields exactly `{ dynamic: "strict", properties: { user: {
properties: { name: { type: "text" } } } } }`. -/
theorem c7_example :
    mappingFromFieldMap
      [("user.name", [("type", JVal.str "text"), ("required", JVal.bool true)])]
      DynamicMode.strict =
    Except.ok
      { dynamic := DynamicMode.strict
        properties :=
          [("user", JVal.obj [("properties", JVal.obj
            [("name", JVal.obj [("type", JVal.str "text")])])])] } := rfl

/-- C8 (counterexample): the claim fails as stated — the field name
`__proto__` is non-empty with non-empty segments (well-formed), yet the
builder raises: the safer-set guard rejects prototype-polluting path
segments. -/
theorem c8_counterexample :
    wfName "__proto__" = true ∧
    mappingFromFieldMap [("__proto__", [("type", JVal.str "text")])]
      (DynamicMode.dyn true) =
      Except.error "Illegal access of object prototype" :=
  ⟨rfl, rfl⟩

/-- C8 (amended): the builder terminates normally with no exception for
every table whose effective names are strings, contain no bracket
characters (so lodash's parsed keys are exactly the dot-split segments),
and whose parsed keys avoid the guard keys `__proto__`, `constructor`,
`prototype`; under that precondition the error branch is unreachable. -/
theorem c8_amended (fm : FieldMap) (d : DynamicMode)
    (h : ∀ e ∈ fm, nameOk e = true ∧ safePath (entryName e) = true ∧
      bracketFree (entryName e) = true) :
    ∃ r, mappingFromFieldMap fm d = Except.ok r :=
  ⟨_, mapping_ok fm d (fun e he => ⟨(h e he).1, (h e he).2.1⟩)⟩

theorem c8_amended_witness :
    ∃ r, mappingFromFieldMap
      [("user.name", [("type", JVal.str "text")]), ("labels", [("type", JVal.str "flattened")])]
      DynamicMode.strict = Except.ok r :=
  c8_amended _ _ (by decide)

/-- A key that reads as absent heads no binding. -/
theorem getKey_none_not_mem {α : Type} {o : List (String × α)} {k : String}
    (h : getKey o k = none) : ∀ kv ∈ o, kv.1 ≠ k := by
  intro kv hm he
  induction o with
  | nil => cases hm
  | cons kv' rest ih =>
    by_cases hk : kv'.1 = k
    · simp [getKey, hk] at h
    · simp [getKey, hk] at h
      rcases List.mem_cons.mp hm with h' | h'
      · exact hk (h' ▸ he)
      · exact ih h h'

/-- Merging `{ name: key, ...decl }` for a declaration without a `name`
attribute just prepends the binding. -/
theorem mergedField_of_no_name (key : String) (decl : JObj)
    (hname : getKey decl "name" = none) (hnd : noDupKeys decl = true) :
    mergedField key decl = ("name", JVal.str key) :: decl := by
  unfold mergedField
  have h := spreadInto_append decl [("name", JVal.str key)] hnd (fun kv hm => by
    have hne : ¬("name" = kv.1) := fun he => getKey_none_not_mem hname kv hm he.symm
    simp [getKey, hne])
  simpa using h

/-- C6 (confirmed): two fields sharing a first segment (`a.b` and `a.c`,
declarations without `name` attributes) merge into a single `properties.a`
node whose `properties` subtree holds both `b` and `c` — neither two `a`
nodes nor one field overwriting the other. -/
theorem c6_shared_first_segment (d1 d2 : JObj) (dyn : DynamicMode)
    (h1 : getKey d1 "name" = none) (h2 : getKey d2 "name" = none)
    (hnd1 : noDupKeys d1 = true) (hnd2 : noDupKeys d2 = true) :
    mappingFromFieldMap [("a.b", d1), ("a.c", d2)] dyn =
      Except.ok { dynamic := dyn
                  properties := [("a", JVal.obj [("properties", JVal.obj
                    [("b", JVal.obj (omitKeys d1 rmKeys)),
                     ("c", JVal.obj (omitKeys d2 rmKeys))])])] } := by
  have hf : fieldsOf [("a.b", d1), ("a.c", d2)] =
      [("name", JVal.str "a.b") :: d1, ("name", JVal.str "a.c") :: d2] := by
    show [mergedField "a.b" d1, mergedField "a.c" d2] = _
    rw [mergedField_of_no_name _ _ h1 hnd1, mergedField_of_no_name _ _ h2 hnd2]
  unfold mappingFromFieldMap
  rw [hf]
  rfl

theorem c6_shared_first_segment_witness :
    mappingFromFieldMap
      [("a.b", [("type", JVal.str "text")]), ("a.c", [("type", JVal.str "keyword")])]
      DynamicMode.strict =
      Except.ok { dynamic := DynamicMode.strict
                  properties := [("a", JVal.obj [("properties", JVal.obj
                    [("b", JVal.obj (omitKeys [("type", JVal.str "text")] rmKeys)),
                     ("c", JVal.obj (omitKeys [("type", JVal.str "keyword")] rmKeys))])])] } :=
  c6_shared_first_segment [("type", JVal.str "text")] [("type", JVal.str "keyword")]
    DynamicMode.strict rfl rfl rfl rfl

/-- C10 (confirmed): the placed leaf never contains a `name` key — the
destructuring strips `name` along with `required` and `array` — and a
declaration's own string `name` attribute (well-formed, guard-safe, with
no array-index segments and no bracket characters, keeping lodash's parse
equal to the dot-split) overrides the table key: the field is placed at
the attribute's path, the key playing no role. -/
theorem c10_name_stripped :
    (∀ (key : String) (decl : JObj), getKey (restOf key decl) "name" = none) ∧
    ∀ (key : String) (decl : JObj) (d : DynamicMode) (s : String),
      getKey decl "name" = some (JVal.str s) → noDupKeys decl = true →
      wfName s = true → safePath s = true → noIndexSegs s = true →
      bracketFree s = true →
      ∃ props,
        mappingFromFieldMap [(key, decl)] d =
          Except.ok { dynamic := d, properties := props } ∧
        lookupPath props (pathOf s) = some (JVal.obj (omitKeys decl rmKeys)) := by
  constructor
  · intro key decl
    show getKey (omitKeys (mergedField key decl) rmKeys) "name" = none
    exact getKey_omitKeys_mem _ (by simp [rmKeys])
  · intro key decl d s hns hnd _ hsafe _ _
    have hname : effName key decl = some (JVal.str s) := by
      unfold effName mergedField
      rw [getKey_spreadInto decl _ _ hnd, hns]
    have hNameOk : nameOk (key, decl) = true := by simp [nameOk, hname]
    have hEntry : entryName (key, decl) = s := by simp [entryName, hname]
    refine ⟨foldSets [] ([(key, decl)].map toPV),
      mapping_ok [(key, decl)] d (fun e he => by
        have he' : e = (key, decl) := by simpa using he
        subst he'
        exact ⟨hNameOk, by rw [hEntry]; exact hsafe⟩), ?_⟩
    have hp := foldSets_places ([(key, decl)].map toPV) [] (by simp [pairwiseOk])
      (fun pv hpv => by
        obtain ⟨e', _, rfl⟩ := List.mem_map.mp hpv
        exact pathOf_ne_nil _)
      (toPV (key, decl)) (List.mem_map.mpr ⟨(key, decl), by simp, rfl⟩)
    have hpv : toPV (key, decl) =
        (pathOf s, JVal.obj (omitKeys decl rmKeys)) := by
      unfold toPV
      rw [hEntry, restOf_eq_omit _ _ hnd]
    rw [hpv] at hp
    exact hp

theorem c10_name_stripped_witness :
    getKey (restOf "k" [("name", JVal.str "user.name"), ("type", JVal.str "text")])
        "name" = none ∧
    ∃ props,
      mappingFromFieldMap
        [("k", [("name", JVal.str "user.name"), ("type", JVal.str "text")])]
        DynamicMode.strict = Except.ok { dynamic := DynamicMode.strict
                                         properties := props } ∧
      lookupPath props (pathOf "user.name") =
        some (JVal.obj (omitKeys
          [("name", JVal.str "user.name"), ("type", JVal.str "text")] rmKeys)) :=
  ⟨c10_name_stripped.1 "k" [("name", JVal.str "user.name"), ("type", JVal.str "text")],
   c10_name_stripped.2 "k" [("name", JVal.str "user.name"), ("type", JVal.str "text")]
     DynamicMode.strict "user.name" rfl rfl rfl rfl rfl rfl⟩

/-! ### Observation lemmas for order-independence (C4) -/

theorem isPrefixOf_self (p : List String) : p.isPrefixOf p = true := by
  have h := prefix_of_append p []
  rw [List.append_nil] at h
  exact h

theorem isPrefixOf_trans {p q r : List String} (h1 : p.isPrefixOf q = true)
    (h2 : q.isPrefixOf r = true) : p.isPrefixOf r = true := by
  obtain ⟨t1, rfl⟩ := prefix_exists h1
  obtain ⟨t2, rfl⟩ := prefix_exists h2
  rw [List.append_assoc]
  exact prefix_of_append _ _

/-- Two prefixes of the same path are comparable. -/
theorem both_prefix_comp {p p2 q : List String} (h1 : p.isPrefixOf q = true)
    (h2 : p2.isPrefixOf q = true) : pcomp p p2 = true := by
  rcases List.prefix_or_prefix_of_prefix (List.isPrefixOf_iff_prefix.mp h1)
      (List.isPrefixOf_iff_prefix.mp h2) with h | h
  · unfold pcomp
    rw [List.isPrefixOf_iff_prefix.mpr h]
    simp
  · unfold pcomp
    rw [List.isPrefixOf_iff_prefix.mpr h]
    rw [Bool.or_comm]
    simp

/-- Master lemma: the observation of `lset o p v` at any path `q`, in terms
of the observation of `o` — read inside `v` when `p` is a prefix of `q`, an
object node when `q` is a proper prefix of `p`, untouched otherwise. -/
theorem obsAt_lset (p : List String) (o : JObj) (v : JVal) (q : List String)
    (hp : p ≠ []) :
    obsAt (lset o p v) q =
      if p.isPrefixOf q then (lookupVal v (q.drop p.length)).map toObs
      else if q.isPrefixOf p then some Obs.node
      else obsAt o q := by
  by_cases h1 : p.isPrefixOf q = true
  · obtain ⟨t, rfl⟩ := prefix_exists h1
    rw [if_pos h1]
    unfold obsAt
    rw [lookupPath_lset_self p o t v hp, List.drop_left]
  · rw [if_neg h1]
    by_cases h2 : q.isPrefixOf p = true
    · have hne : q ≠ p := fun he => h1 (he ▸ isPrefixOf_self p)
      obtain ⟨m, hm⟩ := lookupPath_lset_proper p o q v h2 hne
      rw [if_pos h2]
      unfold obsAt
      rw [hm]
      rfl
    · have hcomp : pcomp p q = false := by
        unfold pcomp
        rw [Bool.eq_false_iff]
        intro hor
        rcases Bool.or_eq_true_iff.mp hor with h | h
        · exact h1 h
        · exact h2 h
      rw [if_neg h2]
      unfold obsAt
      rw [lookupPath_lset_incomp p o q v hcomp]

/-- Congruence: `lset` preserves structural identity of trees. -/
theorem obsEq_lset {o1 o2 : JObj} (h : ObsEq o1 o2) (p : List String) (v : JVal)
    (hp : p ≠ []) : ObsEq (lset o1 p v) (lset o2 p v) := by
  intro q
  rw [obsAt_lset p o1 v q hp, obsAt_lset p o2 v q hp]
  by_cases h1 : p.isPrefixOf q = true
  · simp [h1]
  · by_cases h2 : q.isPrefixOf p = true
    · simp [h1, h2]
    · simp [h1, h2, h q]

/-- Two placements at incomparable paths commute up to structural
identity. -/
theorem obsEq_lset_swap (o : JObj) (p p2 : List String) (v v2 : JVal)
    (hnc : pcomp p p2 = false) (hp : p ≠ []) (hp2 : p2 ≠ []) :
    ObsEq (lset (lset o p v) p2 v2) (lset (lset o p2 v2) p v) := by
  intro q
  rw [obsAt_lset p2 (lset o p v) v2 q hp2, obsAt_lset p o v q hp,
    obsAt_lset p (lset o p2 v2) v q hp, obsAt_lset p2 o v2 q hp2]
  by_cases c3 : p2.isPrefixOf q = true
  · have hc1 : p.isPrefixOf q = false := by
      cases hb : p.isPrefixOf q with
      | false => rfl
      | true => exact absurd (both_prefix_comp hb c3) (by simp [hnc])
    have hc2 : q.isPrefixOf p = false := by
      cases hb : q.isPrefixOf p with
      | false => rfl
      | true =>
        have hpp : p2.isPrefixOf p = true := isPrefixOf_trans c3 hb
        have hcp : pcomp p p2 = true := by
          unfold pcomp
          rw [hpp, Bool.or_comm]
          simp
        exact absurd hcp (by simp [hnc])
    simp [c3, hc1, hc2]
  · by_cases c4 : q.isPrefixOf p2 = true
    · have hc1 : p.isPrefixOf q = false := by
        cases hb : p.isPrefixOf q with
        | false => rfl
        | true =>
          have hpp : p.isPrefixOf p2 = true := isPrefixOf_trans hb c4
          have hcp : pcomp p p2 = true := by
            unfold pcomp
            rw [hpp]
            simp
          exact absurd hcp (by simp [hnc])
      by_cases c2 : q.isPrefixOf p = true
      · simp [c3, c4, hc1, c2]
      · simp [c3, c4, hc1, c2]
    · simp [c3, c4]

/-- Congruence of the whole fold. -/
theorem obsEq_foldSets {o1 o2 : JObj} (l : List (List String × JVal))
    (h : ObsEq o1 o2) (hne : ∀ pv ∈ l, pv.1 ≠ []) :
    ObsEq (foldSets o1 l) (foldSets o2 l) := by
  induction l generalizing o1 o2 with
  | nil => exact h
  | cons pv rest ih =>
    rw [foldSets_cons, foldSets_cons]
    exact ih (obsEq_lset h pv.1 pv.2 (hne pv (List.mem_cons_self _ _)))
      (fun pv' h' => hne pv' (List.mem_cons_of_mem _ h'))

theorem pairwiseOk_iff (l : List (List String × JVal)) :
    pairwiseOk l = true ↔ l.Pairwise (fun a b => pcomp a.1 b.1 = false) := by
  induction l with
  | nil => simp [pairwiseOk]
  | cons pv rest ih =>
    rw [List.pairwise_cons, ← ih]
    constructor
    · intro h
      exact pairwiseOk_cons h
    · intro h
      simp only [pairwiseOk, Bool.and_eq_true, List.all_eq_true, Bool.not_eq_true']
      exact ⟨h.1, h.2⟩

theorem pairwiseOk_perm {l1 l2 : List (List String × JVal)} (hp : l1.Perm l2)
    (h : pairwiseOk l1 = true) : pairwiseOk l2 = true := by
  rw [pairwiseOk_iff] at h ⊢
  exact (List.Perm.pairwise_iff
    (fun hxy => by rw [pcomp_comm]; exact hxy) hp).mp h

/-- Permutation invariance of the fold, up to structural identity, for
pairwise incomparable non-empty paths. -/
theorem foldSets_perm {l1 l2 : List (List String × JVal)} (hperm : l1.Perm l2) :
    ∀ o : JObj, pairwiseOk l1 = true → (∀ pv ∈ l1, pv.1 ≠ []) →
      ObsEq (foldSets o l1) (foldSets o l2) := by
  induction hperm with
  | nil => exact fun o _ _ q => rfl
  | cons x h ih =>
    intro o hpw hne
    rw [foldSets_cons, foldSets_cons]
    exact ih _ (pairwiseOk_cons hpw).2
      (fun pv h' => hne pv (List.mem_cons_of_mem _ h'))
  | swap x y l =>
    intro o hpw hne
    obtain ⟨hy, hpw'⟩ := pairwiseOk_cons hpw
    have hxy : pcomp y.1 x.1 = false := hy x (List.mem_cons_self _ _)
    rw [foldSets_cons, foldSets_cons, foldSets_cons, foldSets_cons]
    exact obsEq_foldSets l
      (obsEq_lset_swap o y.1 x.1 y.2 x.2 hxy
        (hne y (List.mem_cons_self _ _))
        (hne x (List.mem_cons_of_mem _ (List.mem_cons_self _ _))))
      (fun pv h' => hne pv
        (List.mem_cons_of_mem _ (List.mem_cons_of_mem _ h')))
  | trans h12 h23 ih12 ih23 =>
    intro o hpw hne
    refine fun q => (ih12 o hpw hne q).trans (ih23 o (pairwiseOk_perm h12 hpw)
      (fun pv h' => hne pv (h12.mem_iff.mpr h')) q)

/-- C4 (counterexample): the claim fails as stated — the two orderings of
the same entry set `{ a: {type: keyword}, a.b: {type: text} }` (unique,
well-formed names) build different trees: placing `a` last overwrites the
subtree that held `a.b`. -/
theorem c4_counterexample :
    ([("a.b", [("type", JVal.str "text")]), ("a", [("type", JVal.str "keyword")])] :
        FieldMap).Perm
      [("a", [("type", JVal.str "keyword")]), ("a.b", [("type", JVal.str "text")])] ∧
    mappingFromFieldMap
      [("a.b", [("type", JVal.str "text")]), ("a", [("type", JVal.str "keyword")])]
      DynamicMode.strict =
      Except.ok { dynamic := DynamicMode.strict
                  properties := [("a", JVal.obj [("type", JVal.str "keyword")])] } ∧
    mappingFromFieldMap
      [("a", [("type", JVal.str "keyword")]), ("a.b", [("type", JVal.str "text")])]
      DynamicMode.strict =
      Except.ok { dynamic := DynamicMode.strict
                  properties := [("a", JVal.obj [("type", JVal.str "keyword"),
                    ("properties", JVal.obj [("b", JVal.obj
                      [("type", JVal.str "text")])])])] } ∧
    ¬ ObsEq [("a", JVal.obj [("type", JVal.str "keyword")])]
        [("a", JVal.obj [("type", JVal.str "keyword"),
          ("properties", JVal.obj [("b", JVal.obj [("type", JVal.str "text")])])])] := by
  refine ⟨List.Perm.swap _ _ _, rfl, rfl, ?_⟩
  intro h
  exact absurd (h ["a", "properties", "b", "type"]) (by decide)

/-- C4 (amended): for tables whose entries have string, well-formed,
guard-safe, index-free, bracket-free effective names with pairwise
incomparable expanded paths (no name a segment-prefix of another), any two
permutations of the same entries build structurally identical trees (equal
observations at every path) under the same dynamic mode. -/
theorem c4_amended (fm1 fm2 : FieldMap) (d : DynamicMode)
    (hperm : fm1.Perm fm2)
    (hg : ∀ e ∈ fm1, goodEntry e)
    (hpw : pairwiseOk (fm1.map toPV) = true) :
    ∃ r1 r2,
      mappingFromFieldMap fm1 d = Except.ok r1 ∧
      mappingFromFieldMap fm2 d = Except.ok r2 ∧
      r1.dynamic = r2.dynamic ∧ ObsEq r1.properties r2.properties := by
  have hg2 : ∀ e ∈ fm2, goodEntry e := fun e he => hg e (hperm.mem_iff.mpr he)
  refine ⟨_, _, mapping_ok fm1 d (fun e he => ⟨(hg e he).1, (hg e he).2.2.1⟩),
    mapping_ok fm2 d (fun e he => ⟨(hg2 e he).1, (hg2 e he).2.2.1⟩), rfl, ?_⟩
  exact foldSets_perm (hperm.map toPV) [] hpw
    (fun pv hpv => by
      obtain ⟨e', _, rfl⟩ := List.mem_map.mp hpv
      exact pathOf_ne_nil _)

theorem c4_amended_witness :
    ∃ r1 r2,
      mappingFromFieldMap
        [("a", [("type", JVal.str "x")]), ("b.c", [("type", JVal.str "y")])]
        DynamicMode.strict = Except.ok r1 ∧
      mappingFromFieldMap
        [("b.c", [("type", JVal.str "y")]), ("a", [("type", JVal.str "x")])]
        DynamicMode.strict = Except.ok r2 ∧
      r1.dynamic = r2.dynamic ∧ ObsEq r1.properties r2.properties :=
  c4_amended _ _ _ (List.Perm.swap _ _ _) (by decide) (by decide)

/-! ### Heap lemmas: the build writes only above the watermark (C9) -/

theorem lowAgree_refl (n0 : Nat) (st : Store) : lowAgree n0 st st :=
  fun _ _ => rfl

theorem lowAgree_trans {n0 : Nat} {st1 st2 st3 : Store}
    (h1 : lowAgree n0 st1 st2) (h2 : lowAgree n0 st2 st3) : lowAgree n0 st1 st3 :=
  fun b hb => (h2 b hb).trans (h1 b hb)

theorem lowAgree_append {n0 : Nat} (st : Store) (o : HObj) (h : n0 ≤ st.length) :
    lowAgree n0 st (st ++ [o]) := by
  intro b hb
  exact List.get?_append (lt_of_lt_of_le hb h)

theorem lowAgree_set {n0 : Nat} (st : Store) (a : Nat) (o : HObj) (h : n0 ≤ a) :
    lowAgree n0 st (st.set a o) := by
  intro b hb
  exact List.get?_set_ne o st (by omega)

theorem refsHigh_readObj {n0 : Nat} {st : Store} (h : refsHigh n0 st) (a : Nat) :
    hobjHigh n0 (readObj st a) := by
  unfold readObj
  cases hg : st.get? a with
  | none => intro kv hm; cases hm
  | some o =>
    have ho := h o (List.get?_mem hg)
    simpa using ho

theorem hobjHigh_setKey {n0 : Nat} {o : HObj} {k : String} {v : HVal}
    (ho : hobjHigh n0 o) (hv : hvalHigh n0 v) : hobjHigh n0 (setKey o k v) := by
  intro kv hm
  rcases mem_setKey hm with h | h
  · rw [h]; exact hv
  · exact ho kv h

theorem hobjHigh_spreadInto {n0 : Nat} {e : HObj} :
    ∀ {b : HObj}, hobjHigh n0 b → hobjHigh n0 e → hobjHigh n0 (spreadInto b e) := by
  induction e with
  | nil => intro b hb _; exact hb
  | cons kv rest ih =>
    intro b hb he
    exact ih (hobjHigh_setKey hb (he kv (List.mem_cons_self _ _)))
      (fun kv' h' => he kv' (List.mem_cons_of_mem _ h'))

theorem hobjHigh_omitKeys {n0 : Nat} {o : HObj} (ks : List String)
    (h : hobjHigh n0 o) : hobjHigh n0 (omitKeys o ks) := by
  induction o with
  | nil => intro kv hm; cases hm
  | cons kv rest ih =>
    have hrest : hobjHigh n0 rest := fun kv' h' => h kv' (List.mem_cons_of_mem _ h')
    intro kv' hm'
    by_cases hk : ks.contains kv.1 = true
    · simp only [omitKeys, hk, if_true] at hm'
      exact ih hrest kv' hm'
    · simp only [omitKeys, hk, if_false] at hm'
      rcases List.mem_cons.mp hm' with h' | h'
      · rw [h']; exact h kv (List.mem_cons_self _ _)
      · exact ih hrest kv' h'

theorem refsHigh_set {n0 : Nat} {st : Store} {a : Nat} {o : HObj}
    (h : refsHigh n0 st) (ho : hobjHigh n0 o) : refsHigh n0 (st.set a o) := by
  intro o' hm
  rcases List.mem_or_eq_of_mem_set hm with h' | h'
  · exact h o' h'
  · rw [h']; exact ho

theorem refsHigh_append {n0 : Nat} {st : Store} {o : HObj}
    (h : refsHigh n0 st) (ho : hobjHigh n0 o) : refsHigh n0 (st ++ [o]) := by
  intro o' hm
  rcases List.mem_append.mp hm with h' | h'
  · exact h o' h'
  · rw [List.mem_singleton.mp h']; exact ho

/-- One `set` call writes only at or above the watermark: it preserves the
store invariant, the store only grows, and the input prefix is untouched. -/
theorem lsetH_frame {n0 : Nat} (p : List String) :
    ∀ (st : Store) (a : Nat) (v : HVal), refsHigh n0 st → n0 ≤ st.length → n0 ≤ a →
      hvalHigh n0 v →
      refsHigh n0 (lsetH st a p v) ∧ n0 ≤ (lsetH st a p v).length ∧
        lowAgree n0 st (lsetH st a p v) := by
  induction p with
  | nil =>
    intro st a v hst hlen _ _
    exact ⟨hst, hlen, lowAgree_refl n0 st⟩
  | cons k p' ih =>
    intro st a v hst hlen ha hv
    cases p' with
    | nil =>
      refine ⟨refsHigh_set hst (hobjHigh_setKey (refsHigh_readObj hst a) hv), ?_, ?_⟩
      · show n0 ≤ ((st.set a _).length)
        rw [List.length_set]
        exact hlen
      · exact lowAgree_set st a _ ha
    | cons k2 p'' =>
      have hdef :
          refsHigh n0 (lsetH (writeObj (st ++ [[]]) a
              (setKey (readObj (st ++ [[]]) a) k (HVal.ref st.length))) st.length
              (k2 :: p'') v) ∧
          n0 ≤ (lsetH (writeObj (st ++ [[]]) a
              (setKey (readObj (st ++ [[]]) a) k (HVal.ref st.length))) st.length
              (k2 :: p'') v).length ∧
          lowAgree n0 st (lsetH (writeObj (st ++ [[]]) a
              (setKey (readObj (st ++ [[]]) a) k (HVal.ref st.length))) st.length
              (k2 :: p'') v) := by
        have hst1 : refsHigh n0 (st ++ [[]]) :=
          refsHigh_append hst (fun kv hm => by cases hm)
        have hlen1 : n0 ≤ (st ++ [[]]).length := by
          rw [List.length_append]
          omega
        have hlow1 : lowAgree n0 st (st ++ [[]]) := lowAgree_append st [] hlen
        have hobj2 : hobjHigh n0
            (setKey (readObj (st ++ [[]]) a) k (HVal.ref st.length)) :=
          hobjHigh_setKey (refsHigh_readObj hst1 a) hlen
        have hst2 : refsHigh n0 (writeObj (st ++ [[]]) a
            (setKey (readObj (st ++ [[]]) a) k (HVal.ref st.length))) :=
          refsHigh_set hst1 hobj2
        have hlen2 : n0 ≤ (writeObj (st ++ [[]]) a
            (setKey (readObj (st ++ [[]]) a) k (HVal.ref st.length))).length := by
          show n0 ≤ (List.set _ _ _).length
          rw [List.length_set]
          exact hlen1
        have hlow2 : lowAgree n0 (st ++ [[]]) (writeObj (st ++ [[]]) a
            (setKey (readObj (st ++ [[]]) a) k (HVal.ref st.length))) :=
          lowAgree_set _ a _ ha
        obtain ⟨hA, hB, hC⟩ := ih _ st.length v hst2 hlen2 hlen hv
        exact ⟨hA, hB, lowAgree_trans (lowAgree_trans hlow1 hlow2) hC⟩
      cases hg : getKey (readObj st a) k with
      | none => simp only [lsetH, hg]; exact hdef
      | some w =>
        cases w with
        | ref c =>
          have hc : n0 ≤ c := refsHigh_readObj hst a (k, HVal.ref c) (getKey_mem hg)
          simp only [lsetH, hg]
          exact ih st c v hst hlen hc hv
        | str s => simp only [lsetH, hg]; exact hdef
        | bool b => simp only [lsetH, hg]; exact hdef
        | num n => simp only [lsetH, hg]; exact hdef

/-- Phase one only appends fresh objects: invariants and the low prefix are
preserved. -/
theorem allocFields_frame {n0 : Nat} (fm : List (String × Nat)) :
    ∀ st : Store, refsHigh n0 st → n0 ≤ st.length →
      refsHigh n0 (allocFields st fm).1 ∧ n0 ≤ (allocFields st fm).1.length ∧
        lowAgree n0 st (allocFields st fm).1 := by
  induction fm with
  | nil => intro st h1 h2; exact ⟨h1, h2, lowAgree_refl n0 st⟩
  | cons kv rest ih =>
    intro st h1 h2
    have hmerged : hobjHigh n0
        (spreadInto [("name", HVal.str kv.1)] (readObj st kv.2)) :=
      hobjHigh_spreadInto
        (fun kv' hm => by
          rw [List.mem_singleton.mp hm]
          trivial)
        (refsHigh_readObj h1 kv.2)
    have h1' : refsHigh n0 (st ++ [spreadInto [("name", HVal.str kv.1)]
        (readObj st kv.2)]) := refsHigh_append h1 hmerged
    have h2' : n0 ≤ (st ++ [spreadInto [("name", HVal.str kv.1)]
        (readObj st kv.2)]).length := by
      rw [List.length_append]
      omega
    obtain ⟨hA, hB, hC⟩ := ih _ h1' h2'
    exact ⟨hA, hB, lowAgree_trans (lowAgree_append st _ h2) hC⟩

/-- Phase two (the `forEach` loop) writes only above the watermark. -/
theorem runFieldsH_frame {n0 p0 : Nat} (fas : List Nat) (hp : n0 ≤ p0) :
    ∀ st : Store, refsHigh n0 st → n0 ≤ st.length →
      ∀ st', runFieldsH p0 st fas = Except.ok st' →
        refsHigh n0 st' ∧ n0 ≤ st'.length ∧ lowAgree n0 st st' := by
  induction fas with
  | nil =>
    intro st h1 h2 st' he
    injection he with he
    subst he
    exact ⟨h1, h2, lowAgree_refl n0 st⟩
  | cons fa rest ih =>
    intro st h1 h2 st' he
    cases hg : getKey (readObj st fa) "name" with
    | none =>
      simp only [runFieldsH, hg] at he
      exact Except.noConfusion he
    | some w =>
      cases w with
      | str name =>
        simp only [runFieldsH, hg] at he
        by_cases hfb : (pathOf name).any isForbidden = true
        · rw [if_pos hfb] at he; cases he
        · rw [if_neg hfb] at he
          have hrest : hobjHigh n0 (omitKeys (readObj st fa) rmKeys) :=
            hobjHigh_omitKeys rmKeys (refsHigh_readObj h1 fa)
          have h1' : refsHigh n0 (st ++ [omitKeys (readObj st fa) rmKeys]) :=
            refsHigh_append h1 hrest
          have h2' : n0 ≤ (st ++ [omitKeys (readObj st fa) rmKeys]).length := by
            rw [List.length_append]
            omega
          obtain ⟨hA, hB, hC⟩ := lsetH_frame (pathOf name)
            (st ++ [omitKeys (readObj st fa) rmKeys]) p0 (HVal.ref st.length)
            h1' h2' hp h2
          obtain ⟨hA', hB', hC'⟩ := ih _ hA hB st' he
          exact ⟨hA', hB',
            lowAgree_trans (lowAgree_trans (lowAgree_append st _ h2) hC) hC'⟩
      | bool b =>
        simp only [runFieldsH, hg] at he
        exact Except.noConfusion he
      | num n =>
        simp only [runFieldsH, hg] at he
        exact Except.noConfusion he
      | ref c =>
        simp only [runFieldsH, hg] at he
        exact Except.noConfusion he

/-- C9 (counterexample): the claim fails as stated — the builder can
mutate the input. The store holds `inner = {}` at address 0 and the
declarations `{type: "x", properties: inner}` (address 1) and
`{type: "y"}` (address 2); with the table `{ a: @1, "a.b": @2 }` the
shallow `rest` copy of `a` shares `inner`, the `set` for `a.b` descends
through it and writes `b` into it, and the structural value of the input
declaration at address 1 has changed after the call. -/
theorem c9_counterexample :
    mappingFromFieldMapH
      [[], [("type", HVal.str "x"), ("properties", HVal.ref 0)],
       [("type", HVal.str "y")]]
      [("a", 1), ("a.b", 2)] =
      Except.ok
        ([[("b", HVal.ref 7)],
          [("type", HVal.str "x"), ("properties", HVal.ref 0)],
          [("type", HVal.str "y")],
          [("a", HVal.ref 6)],
          [("name", HVal.str "a"), ("type", HVal.str "x"), ("properties", HVal.ref 0)],
          [("name", HVal.str "a.b"), ("type", HVal.str "y")],
          [("type", HVal.str "x"), ("properties", HVal.ref 0)],
          [("type", HVal.str "y")]], 3) ∧
    readVal 10
      [[], [("type", HVal.str "x"), ("properties", HVal.ref 0)],
       [("type", HVal.str "y")]]
      (HVal.ref 1) =
      some (JVal.obj [("type", JVal.str "x"), ("properties", JVal.obj [])]) ∧
    readVal 10
      [[("b", HVal.ref 7)],
       [("type", HVal.str "x"), ("properties", HVal.ref 0)],
       [("type", HVal.str "y")],
       [("a", HVal.ref 6)],
       [("name", HVal.str "a"), ("type", HVal.str "x"), ("properties", HVal.ref 0)],
       [("name", HVal.str "a.b"), ("type", HVal.str "y")],
       [("type", HVal.str "x"), ("properties", HVal.ref 0)],
       [("type", HVal.str "y")]]
      (HVal.ref 1) =
      some (JVal.obj [("type", JVal.str "x"), ("properties", JVal.obj
        [("b", JVal.obj [("type", JVal.str "y")])])]) ∧
    JVal.obj [("type", JVal.str "x"), ("properties", JVal.obj [])] ≠
      JVal.obj [("type", JVal.str "x"), ("properties", JVal.obj
        [("b", JVal.obj [("type", JVal.str "y")])])] := by
  refine ⟨rfl, rfl, rfl, ?_⟩
  simp

/-- C9 (amended): when every attribute value in the input store is a
primitive (no object-valued attributes shared by reference), the call
leaves the input store untouched — every address below the input store's
size reads exactly as before, so in particular every declaration object is
structurally equal after the call. -/
theorem c9_amended (st0 : Store) (fm : List (String × Nat))
    (hsc : ∀ o ∈ st0, ∀ kv ∈ o, isScalarH kv.2 = true) :
    ∀ st' p0', mappingFromFieldMapH st0 fm = Except.ok (st', p0') →
      (∀ b, b < st0.length → st'.get? b = st0.get? b) ∧
      ∀ kv ∈ fm, kv.2 < st0.length → readObj st' kv.2 = readObj st0 kv.2 := by
  intro st' p0' he
  have hhigh : refsHigh st0.length st0 := by
    intro o ho kv hm
    have := hsc o ho kv hm
    cases hv : kv.2 with
    | ref c => rw [hv] at this; simp [isScalarH] at this
    | str s => trivial
    | bool b => trivial
    | num n => trivial
  have h1 : refsHigh st0.length (st0 ++ [[]]) :=
    refsHigh_append hhigh (fun kv hm => by cases hm)
  have h2 : st0.length ≤ (st0 ++ [[]]).length := by
    rw [List.length_append]
    omega
  obtain ⟨hA, hB, hC⟩ := allocFields_frame fm (st0 ++ [[]]) h1 h2
  simp only [mappingFromFieldMapH] at he
  cases hr : runFieldsH st0.length
      (allocFields (st0 ++ [[]]) fm).1 (allocFields (st0 ++ [[]]) fm).2 with
  | error e => rw [hr] at he; cases he
  | ok stf =>
    rw [hr] at he
    injection he with he
    have hst : stf = st' := congrArg Prod.fst he
    subst hst
    obtain ⟨_, _, hC'⟩ := runFieldsH_frame (allocFields (st0 ++ [[]]) fm).2
      (le_refl st0.length) _ hA hB stf hr
    have hlow : lowAgree st0.length st0 stf :=
      lowAgree_trans (lowAgree_trans (lowAgree_append st0 [] (le_refl _)) hC) hC'
    refine ⟨fun b hb => hlow b hb, fun kv _ hkb => ?_⟩
    unfold readObj
    rw [hlow kv.2 hkb]

theorem c9_amended_witness :
    (∀ b, b < ([[("type", HVal.str "keyword")]] : Store).length →
      ([[("type", HVal.str "keyword")],
        [("a", HVal.ref 3)],
        [("name", HVal.str "a"), ("type", HVal.str "keyword")],
        [("type", HVal.str "keyword")]] : Store).get? b =
        ([[("type", HVal.str "keyword")]] : Store).get? b) ∧
    ∀ kv ∈ ([("a", 0)] : List (String × Nat)),
      kv.2 < ([[("type", HVal.str "keyword")]] : Store).length →
      readObj [[("type", HVal.str "keyword")],
        [("a", HVal.ref 3)],
        [("name", HVal.str "a"), ("type", HVal.str "keyword")],
        [("type", HVal.str "keyword")]] kv.2 =
        readObj [[("type", HVal.str "keyword")]] kv.2 :=
  c9_amended [[("type", HVal.str "keyword")]] [("a", 0)] (by decide)
    [[("type", HVal.str "keyword")],
     [("a", HVal.ref 3)],
     [("name", HVal.str "a"), ("type", HVal.str "keyword")],
     [("type", HVal.str "keyword")]] 1 rfl
